import Mathlib

set_option maxRecDepth 100000

/-!
Verification of the `anagram` crate (`src/lib.rs`) against its natural-language
specification.  The four public functions `count`, `occurences`, `is_anagram`
and `get_next` are embedded shallowly:

* words are sequences of code units; `count` and `is_anagram` iterate over
  `chars()`, modelled as `List Nat` of code-point values; `occurences` and
  `get_next` index `as_bytes()`, modelled as `List (Fin 256)` (the spec's §3
  invariant: these two operate on 8-bit code units, one byte per character);
* `u128` arithmetic wraps on overflow (release build), modelled by reducing
  modulo `2 ^ 128` after each multiplication;
* operations that can panic (out-of-bounds indexing, `usize` underflow)
  return `Option`, with `none` marking the panic.
-/

namespace Anagram

/-- Source `factorial`: `if n <= 1 { 1 } else { n * factorial(n - 1) }` on
`u128`; the multiplication wraps, hence the reduction modulo `2 ^ 128`. -/
def factorial : Nat → Nat
  | 0 => 0 + 1
  | 1 => 1
  | n + 2 => ((n + 2) * factorial (n + 1)) % 2 ^ 128

/-- The divisor loop of source `count`: walks the word, and for every character
`c` not yet in `seen` multiplies the accumulator by the number of occurrences
of `c` in the word (`divisor *= char_counts[&c]`, a wrapping `u128`
multiplication).  Note the source multiplies by the occurrence count itself,
not by its factorial. -/
def divisorLoop (word : List Nat) : List Nat → List Nat → Nat → Nat
  | [], _, acc => acc
  | c :: rest, seen, acc =>
    if c ∈ seen then divisorLoop word rest seen acc
    else divisorLoop word rest (c :: seen) ((acc * word.count c) % 2 ^ 128)

/-- Source `count`: if all characters are distinct (the `HashSet` of the
characters has the same cardinality as the word) return `factorial n`,
otherwise `factorial n / divisor`.  The set cardinality is the number of
distinct characters, i.e. `word.dedup.length`. -/
def count (word : List Nat) : Nat :=
  if word.dedup.length = word.length then factorial word.length
  else factorial word.length / divisorLoop word word [] 1

/-- Modelled from the spec (§4.1), not from the source: the multinomial
coefficient `n!` divided by the product over each distinct character `c` of
`(occurrences of c)!`.  Kept separate from `count` so the two can be
compared. -/
def countSpec (word : List Nat) : Nat :=
  Nat.factorial word.length /
    (word.dedup.map fun c => Nat.factorial (word.count c)).prod

/-- Source `is_anagram`: if the character counts differ return `false`,
otherwise add every code point of `left` to an `i128` accumulator, subtract
every code point of `right`, and compare with zero.  The `i128` cannot
overflow for representable strings, so it is modelled as `Int`. -/
def is_anagram (left right : List Nat) : Bool :=
  if left.length ≠ right.length then false
  else
    (right.foldl (fun acc (c : Nat) => acc - (c : Int))
      (left.foldl (fun acc (c : Nat) => acc + (c : Int)) 0)) == 0

/-- Bytes, the 8-bit code units indexed by `word.as_bytes()`. -/
abbrev Byte := Fin 256

/-- One update `count[b] += d` of the 256-entry counter table of source
`occurences`; the table is modelled as a function `Nat → Int`. -/
def bump (cnt : Nat → Int) (b : Nat) (d : Int) : Nat → Int :=
  fun x => if x = b then cnt x + d else cnt x

/-- Source `is_zero`: scan the 256 counters and test that each is zero. -/
def is_zero (cnt : Nat → Int) : Bool :=
  (List.range 256).all fun i => cnt i == 0

/-- The first loop of source `occurences`: `count[bytes[val]] += 1` for each
listed byte. -/
def addAll (l : List Byte) (cnt : Nat → Int) : Nat → Int :=
  l.foldl (fun c b => bump c b.val 1) cnt

/-- The second loop of source `occurences`: `count[bytes[val]] -= 1` for each
listed byte. -/
def subAll (l : List Byte) (cnt : Nat → Int) : Nat → Int :=
  l.foldl (fun c b => bump c b.val (-1)) cnt

/-- The sliding loop of source `occurences`: for each index `i` in
`len_input..len_word` add the entering byte `word[i]`, remove the leaving byte
`word[i - len_input]`, and add one to the result when all counters are zero. -/
def slideLoop (word : List Byte) (m : Nat) : List Nat → (Nat → Int) → Nat → Nat
  | [], _, acc => acc
  | i :: rest, cnt, acc =>
    slideLoop word m rest
      (bump (bump cnt (word.getD i 0).val 1) (word.getD (i - m) 0).val (-1))
      (acc +
        if is_zero (bump (bump cnt (word.getD i 0).val 1) (word.getD (i - m) 0).val (-1))
        then 1 else 0)

/-- Source `occurences`.  The initial fill loops over `0..len_input` indexing
`word.as_bytes()[val]`, which panics (out of bounds) exactly when the pattern
is longer than the word; the panic is modelled by `none`.  Otherwise the first
window is `word.take len_input`, the pattern is subtracted, the initial window
is checked, and the sliding loop runs over `len_input..len_word`. -/
def occurences (word input : List Byte) : Option Nat :=
  if word.length < input.length then none
  else
    some (slideLoop word input.length
      (List.range' input.length (word.length - input.length))
      (subAll input (addAll (word.take input.length) fun _ => 0))
      (if is_zero (subAll input (addAll (word.take input.length) fun _ => 0)) then 1 else 0))

/-- The difference table maintained by `occurences`: for the current window
`w` the counter at `x` holds `count_in_window x - count_in_pattern x`. -/
def diffFn (w pat : List Byte) (x : Nat) : Int :=
  ((w.countP fun b => b.val == x) : Int) - ((pat.countP fun b => b.val == x) : Int)

/-- The window of length `input.length` starting at position `p` matches iff
its byte multiset equals the pattern's byte multiset. -/
def winMatch (word input : List Byte) (p : Nat) : Bool :=
  decide ((((word.drop p).take input.length) : Multiset Byte) = (input : Multiset Byte))

/-- The pivot scan of source `get_next`: starting from the last index, walk
left while `word[i] <= word[i - 1]`; the result is the first index `i > 0`
with `word[i] > word[i - 1]`, or `0` when the word is non-increasing. -/
def findPivot (word : List Byte) : Nat → Nat
  | 0 => 0
  | i + 1 => if word.getD i 0 < word.getD (i + 1) 0 then i + 1 else findPivot word i

/-- The second scan of source `get_next`: among positions `i+1..len`, find the
position of the smallest byte still strictly greater than `word[i - 1]`,
starting from `smallest = i`. -/
def findSmallest (word : List Byte) (i : Nat) : Nat :=
  (List.range' (i + 1) (word.length - (i + 1))).foldl
    (fun s j =>
      if word.getD (i - 1) 0 < word.getD j 0 ∧ word.getD j 0 < word.getD s 0 then j
      else s) i

/-- `Vec::swap`: exchange the elements at positions `a` and `b` (both are in
bounds at every call site of the source). -/
def swapL (l : List Byte) (a b : Nat) : List Byte :=
  (l.set a (l.getD b 0)).set b (l.getD a 0)

/-- Source `get_next`.  On the empty word `word.chars().count() - 1`
underflows and the subsequent byte index is out of bounds, a panic modelled by
`none`.  Otherwise: find the pivot; if there is none the word is the greatest
permutation and the ascending sort is returned (wrap-around); else swap the
chosen position with `word[i - 1]` and sort the suffix from `i` ascending. -/
def get_next (word : List Byte) : Option (List Byte) :=
  if word.length = 0 then none
  else
    let i := findPivot word (word.length - 1)
    if i = 0 then some (word.insertionSort (· ≤ ·))
    else
      let w2 := swapL word (findSmallest word i) (i - 1)
      some (w2.take i ++ (w2.drop i).insertionSort (· ≤ ·))

/-! ### Helper lemmas about `count` -/

theorem divisorLoop_eq (word : List Nat) :
    ∀ (l seen : List Nat) (acc : Nat), acc < 2 ^ 128 →
      divisorLoop word l seen acc
        = (acc * ((l.toFinset \ seen.toFinset).prod fun c => word.count c)) % 2 ^ 128
  | [], seen, acc, hacc => by
    simp only [divisorLoop, List.toFinset_nil, Finset.empty_sdiff, Finset.prod_empty,
      Nat.mul_one]
    omega
  | c :: rest, seen, acc, hacc => by
    by_cases hc : c ∈ seen
    · rw [divisorLoop, if_pos hc, divisorLoop_eq word rest seen acc hacc]
      have hset : (c :: rest).toFinset \ seen.toFinset = rest.toFinset \ seen.toFinset := by
        ext x
        simp only [List.toFinset_cons, Finset.mem_sdiff, Finset.mem_insert, List.mem_toFinset]
        constructor
        · rintro ⟨hx | hx, hnx⟩
          · exact absurd (hx ▸ hc) (by simpa using hnx)
          · exact ⟨hx, hnx⟩
        · rintro ⟨hx, hnx⟩
          exact ⟨Or.inr hx, hnx⟩
      rw [hset]
    · rw [divisorLoop, if_neg hc,
        divisorLoop_eq word rest (c :: seen) _ (Nat.mod_lt _ (by positivity))]
      have hset : (c :: rest).toFinset \ seen.toFinset
          = insert c (rest.toFinset \ (c :: seen).toFinset) := by
        ext x
        simp only [List.toFinset_cons, Finset.mem_sdiff, Finset.mem_insert, List.mem_toFinset,
          List.mem_cons]
        constructor
        · rintro ⟨hx | hx, hnx⟩
          · exact Or.inl hx
          · by_cases hxc : x = c
            · exact Or.inl hxc
            · exact Or.inr ⟨hx, fun h => Or.elim h hxc hnx⟩
        · rintro (hx | ⟨hx, hnx⟩)
          · exact ⟨Or.inl hx, fun h => hc (hx ▸ h)⟩
          · exact ⟨Or.inr hx, fun h => hnx (Or.inr h)⟩
      have hnotmem : c ∉ rest.toFinset \ (c :: seen).toFinset := by
        simp [Finset.mem_sdiff]
      rw [hset, Finset.prod_insert hnotmem, Nat.mul_mod, Nat.mod_mod_of_dvd _ dvd_rfl,
        ← Nat.mul_mod, ← Nat.mul_assoc]

/-- Claim C9: `count` is invariant under any permutation of its input's
characters: every component of the computation (length, number of distinct
characters, the divisor product) depends only on the character multiset. -/
theorem count_perm_invariant (l l' : List Nat) (h : List.Perm l l') : count l = count l' := by
  have hlen : l.length = l'.length := h.length_eq
  have hfin : l.toFinset = l'.toFinset := List.toFinset_eq_of_perm _ _ h
  have hded : l.dedup.length = l'.dedup.length := by
    rw [← List.card_toFinset, ← List.card_toFinset, hfin]
  have hdiv : divisorLoop l l [] 1 = divisorLoop l' l' [] 1 := by
    rw [divisorLoop_eq l l [] 1 (by norm_num), divisorLoop_eq l' l' [] 1 (by norm_num)]
    congr 1
    rw [List.toFinset_nil, Finset.sdiff_empty, Finset.sdiff_empty, hfin]
    exact congrArg _ (Finset.prod_congr rfl fun c _ => h.count_eq c)
  unfold count
  rw [hlen, hded, hdiv]

/-- Witness for C9 at a concrete permutation pair. -/
theorem count_perm_invariant_witness :
    List.Perm [97, 98, 98] [98, 98, 97] ∧ count [97, 98, 98] = count [98, 98, 97] :=
  ⟨by decide, count_perm_invariant _ _ (by decide)⟩

/-- Claim C1 (code bug): on `"aaa"` the source `count` returns `3! / 3 = 2`
because the divisor multiplies in the occurrence count `3` instead of its
factorial `3! = 6`; the spec's multinomial formula gives `3! / 3! = 1`, the
actual number of distinct arrangements.  The crate's own tests only use words
of maximal character multiplicity `2`, where `k! = k` hides the slip. -/
theorem count_multinomial_code_bug :
    count [97, 97, 97] = 2 ∧ countSpec [97, 97, 97] = 1 := by
  constructor <;> decide

/-! ### Claims about `is_anagram` -/

theorem foldl_add_int (l : List Nat) :
    ∀ a : Int, l.foldl (fun acc (c : Nat) => acc + (c : Int)) a = a + (l.sum : Int) := by
  induction l with
  | nil => intro a; simp
  | cons c t ih =>
    intro a
    rw [List.foldl_cons, ih, List.sum_cons]
    push_cast
    ring

theorem foldl_sub_int (l : List Nat) :
    ∀ a : Int, l.foldl (fun acc (c : Nat) => acc - (c : Int)) a = a - (l.sum : Int) := by
  induction l with
  | nil => intro a; simp
  | cons c t ih =>
    intro a
    rw [List.foldl_cons, ih, List.sum_cons]
    push_cast
    ring

/-- Claim C5: `is_anagram` returns `false` when the character counts differ,
and otherwise returns `true` iff the sums of the code-point values of the two
words agree — a checksum, not a multiset comparison. -/
theorem is_anagram_iff_length_and_sum (left right : List Nat) :
    is_anagram left right = true ↔ left.length = right.length ∧ left.sum = right.sum := by
  unfold is_anagram
  by_cases h : left.length = right.length
  · rw [if_neg (by simpa using h), foldl_sub_int, foldl_add_int, beq_iff_eq]
    constructor
    · intro hz
      exact ⟨h, by omega⟩
    · rintro ⟨-, hs⟩
      omega
  · rw [if_pos (by simpa using h)]
    simp [h]

/-! ### Claims settled by direct evaluation -/

/-- Claim C2 as amended: when the pattern's character count exceeds the
word's, the initial fill loop of `occurences` indexes `word.as_bytes()` out of
bounds and the call panics (modelled by `none`); it does not return `0`. -/
theorem occurences_pattern_longer_fails (word input : List Byte)
    (h : word.length < input.length) : occurences word input = none := by
  simp [occurences, h]

/-- Witness for the amended C2 at a concrete input. -/
theorem occurences_pattern_longer_fails_witness :
    (List.length [(97 : Byte)] < List.length [(98 : Byte), 99]) ∧
      occurences [(97 : Byte)] [(98 : Byte), 99] = none :=
  ⟨by decide, occurences_pattern_longer_fails _ _ (by decide)⟩

/-- Counterexample to C2 as stated: for the word `"a"` and pattern `"bc"` the
call does not return `0`. -/
theorem occurences_pattern_longer_not_zero :
    occurences [(97 : Byte)] [(97 : Byte), 98] ≠ some 0 := by
  decide

/-- Claim C3 as amended: on the empty word `word.chars().count() - 1`
underflows (`usize` 0 - 1) and the pivot scan then indexes out of bounds, so
`get_next("")` panics (modelled by `none`) rather than returning the empty
word. -/
theorem get_next_empty_none : get_next ([] : List Byte) = none := by
  decide

/-- Counterexample to C3 as stated: `get_next("")` is not the empty word. -/
theorem get_next_empty_not_empty_word : get_next ([] : List Byte) ≠ some [] := by
  decide

/-- Claim C8 (code bug): the cycle property fails on `"aaa"`.  The word has a
single distinct permutation, but `count "aaa" = 2` (see C1), and iterating
`get_next` from the sorted arrangement `"aaa"` yields `"aaa"` at every step,
so the `count`-fold iteration visits the starting arrangement twice instead of
visiting every distinct permutation exactly once. -/
theorem cycle_property_code_bug :
    count [97, 97, 97] = 2 ∧ get_next ([97, 97, 97] : List Byte) = some [97, 97, 97] := by
  constructor <;> decide

/-! ### Helper lemmas about the counter table of `occurences` -/

theorem addAll_apply (l : List Byte) :
    ∀ (cnt : Nat → Int) (x : Nat),
      addAll l cnt x = cnt x + ((l.countP fun b => b.val == x) : Int) := by
  induction l with
  | nil => intro cnt x; simp [addAll]
  | cons b t ih =>
    intro cnt x
    have hstep : addAll (b :: t) cnt = addAll t (bump cnt b.val 1) := rfl
    rw [hstep, ih, List.countP_cons]
    rcases eq_or_ne x b.val with hx | hx
    · rw [bump, if_pos hx, if_pos (beq_iff_eq.mpr hx.symm)]
      push_cast
      ring
    · rw [bump, if_neg hx, if_neg (fun hc => hx (beq_iff_eq.mp hc).symm)]
      push_cast
      ring

theorem subAll_apply (l : List Byte) :
    ∀ (cnt : Nat → Int) (x : Nat),
      subAll l cnt x = cnt x - ((l.countP fun b => b.val == x) : Int) := by
  induction l with
  | nil => intro cnt x; simp [subAll]
  | cons b t ih =>
    intro cnt x
    have hstep : subAll (b :: t) cnt = subAll t (bump cnt b.val (-1)) := rfl
    rw [hstep, ih, List.countP_cons]
    rcases eq_or_ne x b.val with hx | hx
    · rw [bump, if_pos hx, if_pos (beq_iff_eq.mpr hx.symm)]
      push_cast
      ring
    · rw [bump, if_neg hx, if_neg (fun hc => hx (beq_iff_eq.mp hc).symm)]
      push_cast
      ring

theorem is_zero_iff (cnt : Nat → Int) : is_zero cnt = true ↔ ∀ i < 256, cnt i = 0 := by
  unfold is_zero
  rw [List.all_eq_true]
  constructor
  · intro h i hi
    exact beq_iff_eq.mp (h i (List.mem_range.mpr hi))
  · intro h x hx
    exact beq_iff_eq.mpr (h x (List.mem_range.mp hx))

theorem diffFn_zero_iff (w pat : List Byte) :
    (∀ i < 256, diffFn w pat i = 0) ↔ List.Perm w pat := by
  constructor
  · intro h
    rw [List.perm_iff_count]
    intro a
    have ha := h a.val a.isLt
    unfold diffFn at ha
    have hw : ∀ l : List Byte, (l.countP fun b => b.val == a.val) = l.count a := by
      intro l
      rw [List.count_eq_countP]
      exact List.countP_congr fun b _ => by
        constructor
        · intro hb
          exact beq_iff_eq.mpr ((Fin.val_eq_val b a).mp (beq_iff_eq.mp hb))
        · intro hb
          exact beq_iff_eq.mpr ((Fin.val_eq_val b a).mpr (beq_iff_eq.mp hb))
    rw [hw w, hw pat] at ha
    omega
  · intro h i _
    unfold diffFn
    rw [h.countP_eq]
    omega

/-! ### The sliding-window invariant -/

theorem win_split_right (word : List Byte) (p m : Nat) (h : p + m < word.length) :
    (word.drop p).take (m + 1) = (word.drop p).take m ++ [word.getD (p + m) 0] := by
  rw [List.take_succ, List.getElem?_drop,
    List.getElem?_eq_getElem h, List.getD_eq_getElem _ _ h]
  rfl

theorem win_split_left (word : List Byte) (p m : Nat) (h : p < word.length) :
    (word.drop p).take (m + 1) = word.getD p 0 :: (word.drop (p + 1)).take m := by
  rw [List.drop_eq_getElem_cons h, List.take_succ_cons, List.getD_eq_getElem _ _ h]

theorem win_countP_shift (word : List Byte) (p m : Nat) (h : p + m < word.length)
    (q : Byte → Bool) :
    ((word.drop p).take m).countP q + (if q (word.getD (p + m) 0) then 1 else 0)
      = (if q (word.getD p 0) then 1 else 0) + ((word.drop (p + 1)).take m).countP q := by
  have heq := (win_split_right word p m h).symm.trans (win_split_left word p m (by omega))
  have hc := congrArg (List.countP q) heq
  simp only [List.countP_append, List.countP_cons, List.countP_nil] at hc
  omega

theorem cnt2_eq_diff (word input : List Byte) (p : Nat)
    (hm : p + input.length < word.length) (cnt : Nat → Int)
    (hcnt : ∀ x, cnt x = diffFn ((word.drop p).take input.length) input x) (x : Nat) :
    bump (bump cnt (word.getD (p + input.length) 0).val 1) (word.getD p 0).val (-1) x
      = diffFn ((word.drop (p + 1)).take input.length) input x := by
  have hs := win_countP_shift word p input.length hm (fun b => b.val == x)
  simp only at hs
  unfold bump
  rw [hcnt x]
  unfold diffFn at *
  by_cases h1 : (word.getD (p + input.length) 0).val = x <;>
    by_cases h2 : (word.getD p 0).val = x
  · rw [if_pos (beq_iff_eq.mpr h1), if_pos (beq_iff_eq.mpr h2)] at hs
    rw [if_pos h2.symm, if_pos h1.symm]
    omega
  · rw [if_pos (beq_iff_eq.mpr h1), if_neg (fun hc => h2 (beq_iff_eq.mp hc))] at hs
    rw [if_neg (fun hc => h2 hc.symm), if_pos h1.symm]
    omega
  · rw [if_neg (fun hc => h1 (beq_iff_eq.mp hc)), if_pos (beq_iff_eq.mpr h2)] at hs
    rw [if_pos h2.symm, if_neg (fun hc => h1 hc.symm)]
    omega
  · rw [if_neg (fun hc => h1 (beq_iff_eq.mp hc)),
      if_neg (fun hc => h2 (beq_iff_eq.mp hc))] at hs
    rw [if_neg (fun hc => h2 hc.symm), if_neg (fun hc => h1 hc.symm)]
    omega

theorem winMatch_eq_is_zero (word input : List Byte) (p : Nat) (cnt2 : Nat → Int)
    (hc : ∀ x, cnt2 x = diffFn ((word.drop p).take input.length) input x) :
    (if is_zero cnt2 then 1 else 0) = (if winMatch word input p then 1 else 0) := by
  by_cases hP : List.Perm ((word.drop p).take input.length) input
  · have hz : is_zero cnt2 = true :=
      (is_zero_iff _).mpr fun i _ => by
        rw [hc i]
        exact ((diffFn_zero_iff _ _).mpr hP) i (by omega)
    have hw : winMatch word input p = true := decide_eq_true (Multiset.coe_eq_coe.mpr hP)
    rw [hz, hw]
  · have hz : is_zero cnt2 = false := by
      rw [← Bool.not_eq_true]
      intro hz
      exact hP ((diffFn_zero_iff _ _).mp fun i hi => by rw [← hc i]; exact (is_zero_iff _).mp hz i hi)
    have hw : winMatch word input p = false :=
      decide_eq_false fun hmeq => hP (Multiset.coe_eq_coe.mp hmeq)
    rw [hz, hw]

theorem slideLoop_spec (word input : List Byte) :
    ∀ (r j : Nat) (cnt : Nat → Int) (acc : Nat),
      input.length ≤ j → j + r = word.length →
      (∀ x, cnt x = diffFn ((word.drop (j - input.length)).take input.length) input x) →
      slideLoop word input.length (List.range' j r) cnt acc
        = acc + (List.range' (j - input.length + 1) r).countP (winMatch word input) := by
  intro r
  induction r with
  | zero =>
    intro j cnt acc _ _ _
    simp [slideLoop]
  | succ r ih =>
    intro j cnt acc hmj hjr hcnt
    obtain ⟨p, rfl⟩ : ∃ p, j = p + input.length := ⟨j - input.length, by omega⟩
    have hplt : p + input.length < word.length := by omega
    have hpm : p + input.length - input.length = p := by omega
    rw [hpm] at hcnt
    have hcons : List.range' (p + input.length) (r + 1)
        = (p + input.length) :: List.range' (p + input.length + 1) r := rfl
    rw [hcons, slideLoop, hpm]
    have hc2 : ∀ x,
        bump (bump cnt (word.getD (p + input.length) 0).val 1) (word.getD p 0).val (-1) x
          = diffFn ((word.drop (p + 1)).take input.length) input x :=
      cnt2_eq_diff word input p hplt cnt hcnt
    rw [ih (p + input.length + 1) _ _ (by omega) (by omega)
      (by rw [show p + input.length + 1 - input.length = p + 1 from by omega]; exact hc2)]
    rw [winMatch_eq_is_zero word input (p + 1) _ hc2]
    rw [show p + input.length + 1 - input.length + 1 = p + 2 from by omega]
    have hcons2 : List.range' (p + 1) (r + 1) = (p + 1) :: List.range' (p + 2) r := rfl
    rw [hcons2, List.countP_cons]
    omega

theorem slideLoop_all_zero (word : List Byte) :
    ∀ (idxs : List Nat) (cnt : Nat → Int) (acc : Nat), (∀ x, cnt x = 0) →
      slideLoop word 0 idxs cnt acc = acc + idxs.length := by
  intro idxs
  induction idxs with
  | nil => intro cnt acc _; simp [slideLoop]
  | cons i rest ih =>
    intro cnt acc hcnt
    have hc2 : ∀ x,
        bump (bump cnt (word.getD i 0).val 1) (word.getD (i - 0) 0).val (-1) x = 0 := by
      intro x
      simp only [Nat.sub_zero, bump]
      rcases eq_or_ne x (word.getD i 0).val with hx | hx
      · rw [if_pos hx, if_pos hx, hcnt x]; ring
      · rw [if_neg hx, if_neg hx, hcnt x]
    have hz : is_zero
        (bump (bump cnt (word.getD i 0).val 1) (word.getD (i - 0) 0).val (-1)) = true :=
      (is_zero_iff _).mpr fun y _ => hc2 y
    rw [slideLoop, hz, if_pos rfl, ih _ _ hc2, List.length_cons]
    omega

/-- Claim C7: with the empty pattern every window position matches (all
counters start and remain zero), so `occurences word ""` returns
`word.length + 1`. -/
theorem occurences_empty_pattern_eq_length_succ (word : List Byte) :
    occurences word [] = some (word.length + 1) := by
  unfold occurences
  rw [if_neg (by simp)]
  simp only [List.length_nil, List.take_zero, Nat.sub_zero]
  have h0 : ∀ x, (subAll [] (addAll ([] : List Byte) fun _ => 0)) x = 0 := fun _ => rfl
  have hz : is_zero (subAll [] (addAll ([] : List Byte) fun _ => 0)) = true :=
    (is_zero_iff _).mpr fun i _ => h0 i
  rw [if_pos hz, slideLoop_all_zero word _ _ _ h0]
  simp [Nat.add_comm]

/-- Claim C4: for a non-empty pattern no longer than the word, `occurences`
returns the number of positions `p` in `0..=len(word)-len(pattern)` whose
window `word[p .. p+len(pattern)]` has the same byte multiset as the
pattern. -/
theorem occurences_eq_window_matches (word input : List Byte)
    (h1 : 0 < input.length) (h2 : input.length ≤ word.length) :
    occurences word input
      = some ((List.range (word.length - input.length + 1)).countP (winMatch word input)) := by
  unfold occurences
  rw [if_neg (by omega)]
  have hcnt0 : ∀ x, subAll input (addAll (word.take input.length) fun _ => 0) x
      = diffFn ((word.drop 0).take input.length) input x := by
    intro x
    rw [subAll_apply, addAll_apply, List.drop_zero]
    unfold diffFn
    ring
  rw [slideLoop_spec word input (word.length - input.length) input.length _ _ le_rfl
    (by omega) (by intro x; rw [Nat.sub_self]; exact hcnt0 x)]
  rw [winMatch_eq_is_zero word input 0 _ hcnt0,
    show input.length - input.length + 1 = 1 from by omega, List.range_eq_range']
  refine congrArg some ?_
  have hcons : List.range' 0 (word.length - input.length + 1)
      = 0 :: List.range' 1 (word.length - input.length) := rfl
  rw [hcons, List.countP_cons]
  omega

/-- Witness for C4: the word `"aab"` and pattern `"ab"` have two window
positions of which exactly one (the window `"ab"` at position 1) matches. -/
theorem occurences_eq_window_matches_witness :
    (0 < List.length [(97 : Byte), 98]) ∧
      (List.length [(97 : Byte), 98] ≤ List.length [(97 : Byte), 97, 98]) ∧
      occurences [(97 : Byte), 97, 98] [(97 : Byte), 98]
        = some ((List.range
            (List.length [(97 : Byte), 97, 98] - List.length [(97 : Byte), 98] + 1)).countP
          (winMatch [(97 : Byte), 97, 98] [(97 : Byte), 98])) ∧
      occurences [(97 : Byte), 97, 98] [(97 : Byte), 98] = some 1 :=
  ⟨by decide, by decide, occurences_eq_window_matches _ _ (by decide) (by decide), by decide⟩

/-! ### Helper lemmas about `get_next` -/

theorem findPivot_le (word : List Byte) : ∀ i, findPivot word i ≤ i := by
  intro i
  induction i with
  | zero => exact le_rfl
  | succ k ih =>
    rw [findPivot]
    split
    · exact le_rfl
    · omega

theorem findPivot_eq_zero (word : List Byte)
    (hadj : ∀ k, k + 1 < word.length → word.getD (k + 1) 0 ≤ word.getD k 0) :
    ∀ i, i < word.length → findPivot word i = 0 := by
  intro i
  induction i with
  | zero => intro _; rfl
  | succ k ih =>
    intro hk
    rw [findPivot, if_neg (not_lt.mpr (hadj k hk)), ih (by omega)]

theorem foldl_step_mem (f : Nat → Nat → Nat) (hf : ∀ s j, f s j = s ∨ f s j = j) :
    ∀ (L : List Nat) (s : Nat), L.foldl f s = s ∨ L.foldl f s ∈ L := by
  intro L
  induction L with
  | nil => intro s; exact Or.inl rfl
  | cons j t ih =>
    intro s
    rw [List.foldl_cons]
    rcases ih (f s j) with h | h
    · rcases hf s j with h' | h'
      · exact Or.inl (h.trans h')
      · refine Or.inr ?_
        rw [h, h']
        exact List.mem_cons_self j t
    · exact Or.inr (List.mem_cons_of_mem j h)

theorem findSmallest_lt (word : List Byte) (i : Nat) (h1 : 1 ≤ i)
    (h2 : i ≤ word.length - 1) : findSmallest word i < word.length := by
  unfold findSmallest
  have hf : ∀ s j,
      (if word.getD (i - 1) 0 < word.getD j 0 ∧ word.getD j 0 < word.getD s 0 then j
        else s) = s ∨
      (if word.getD (i - 1) 0 < word.getD j 0 ∧ word.getD j 0 < word.getD s 0 then j
        else s) = j := by
    intro s j
    split
    · exact Or.inr rfl
    · exact Or.inl rfl
  rcases foldl_step_mem _ hf (List.range' (i + 1) (word.length - (i + 1))) i with h | h
  · omega
  · have := List.mem_range'_1.mp h
    omega

theorem count_set_add (l : List Byte) :
    ∀ (i : Nat) (v : Byte), i < l.length → ∀ x : Byte,
      (l.set i v).count x + (if l.getD i 0 = x then 1 else 0)
        = l.count x + (if v = x then 1 else 0) := by
  induction l with
  | nil => intro i v h; simp at h
  | cons c t ih =>
    intro i v h x
    cases i with
    | zero =>
      show (v :: t).count x + (if c = x then 1 else 0)
        = (c :: t).count x + (if v = x then 1 else 0)
      rw [List.count_cons, List.count_cons]
      rcases eq_or_ne v x with hv | hv <;> rcases eq_or_ne c x with hc | hc <;>
        simp [hv, hc] <;> omega
    | succ k =>
      have hk : k < t.length := by simpa using h
      show (c :: t.set k v).count x + (if t.getD k 0 = x then 1 else 0)
        = (c :: t).count x + (if v = x then 1 else 0)
      rw [List.count_cons, List.count_cons]
      have := ih k v hk x
      omega

theorem getD_set_self (l : List Byte) (i : Nat) (v : Byte) (h : i < l.length) :
    (l.set i v).getD i 0 = v := by
  rw [List.getD_eq_getElem _ _ (by simpa using h)]
  exact List.getElem_set_self _

theorem getD_set_ne (l : List Byte) (i j : Nat) (v : Byte) (hij : i ≠ j)
    (h : j < l.length) : (l.set i v).getD j 0 = l.getD j 0 := by
  rw [List.getD_eq_getElem _ _ (by simpa using h), List.getD_eq_getElem _ _ h]
  exact List.getElem_set_ne hij _

theorem swapL_perm (l : List Byte) (a b : Nat) (ha : a < l.length) (hb : b < l.length) :
    List.Perm (swapL l a b) l := by
  unfold swapL
  rw [List.perm_iff_count]
  intro x
  have h1 := count_set_add l a (l.getD b 0) ha x
  have h2 := count_set_add (l.set a (l.getD b 0)) b (l.getD a 0) (by simpa using hb) x
  rcases eq_or_ne a b with hab | hab
  · subst hab
    rw [getD_set_self l a _ ha] at h2
    omega
  · rw [getD_set_ne l a b _ hab hb] at h2
    omega

/-- Claim C6: when the word is non-empty and already non-increasing in
code-unit order (the lexicographically greatest arrangement), `get_next`
wraps around: it returns the permutation of the word that is sorted
ascending, i.e. the lexicographically smallest arrangement (Variant A). -/
theorem get_next_greatest_wraps_to_sorted (word : List Byte) (hne : word ≠ [])
    (hsorted : List.Sorted (fun a b : Byte => b ≤ a) word) :
    ∃ r, get_next word = some r ∧ List.Perm r word ∧
      List.Sorted (fun a b : Byte => a ≤ b) r := by
  have hlen : word.length ≠ 0 := fun h => hne (List.length_eq_zero.mp h)
  have hadj : ∀ k, k + 1 < word.length → word.getD (k + 1) 0 ≤ word.getD k 0 := by
    intro k hk
    have h1 : k < word.length := by omega
    rw [List.getD_eq_getElem _ _ hk, List.getD_eq_getElem _ _ h1]
    exact hsorted.rel_get_of_lt (show (⟨k, h1⟩ : Fin word.length) < ⟨k + 1, hk⟩ from by
      simp [Fin.lt_def])
  have hpiv : findPivot word (word.length - 1) = 0 :=
    findPivot_eq_zero word hadj _ (by omega)
  simp only [get_next]
  rw [if_neg hlen, hpiv, if_pos rfl]
  exact ⟨_, rfl, List.perm_insertionSort _ word, List.sorted_insertionSort _ word⟩

/-- Witness for C6: `get_next "cba" = "abc"`. -/
theorem get_next_greatest_wraps_witness :
    (([99, 98, 97] : List Byte) ≠ []) ∧
      List.Sorted (fun a b : Byte => b ≤ a) [99, 98, 97] ∧
      (∃ r, get_next ([99, 98, 97] : List Byte) = some r ∧ List.Perm r [99, 98, 97] ∧
        List.Sorted (fun a b : Byte => a ≤ b) r) ∧
      get_next ([99, 98, 97] : List Byte) = some [97, 98, 99] :=
  ⟨by decide, by decide, get_next_greatest_wraps_to_sorted _ (by decide) (by decide),
    by decide⟩

/-- Claim C10: on every non-empty word of single-byte characters `get_next`
returns a word of the same length with the same byte multiset: each branch
either sorts the whole word, or swaps two in-bounds positions and sorts a
suffix, all of which are permutations. -/
theorem get_next_preserves_multiset (word : List Byte) (hne : word ≠ []) :
    ∃ r, get_next word = some r ∧ r.length = word.length ∧
      (r : Multiset Byte) = (word : Multiset Byte) := by
  have hlen : word.length ≠ 0 := fun h => hne (List.length_eq_zero.mp h)
  simp only [get_next]
  rw [if_neg hlen]
  by_cases hp : findPivot word (word.length - 1) = 0
  · rw [hp, if_pos rfl]
    exact ⟨_, rfl, (List.perm_insertionSort _ word).length_eq,
      Multiset.coe_eq_coe.mpr (List.perm_insertionSort _ word)⟩
  · rw [if_neg hp]
    have hile : findPivot word (word.length - 1) ≤ word.length - 1 := findPivot_le word _
    have hi1 : 1 ≤ findPivot word (word.length - 1) := Nat.one_le_iff_ne_zero.mpr hp
    have hs_lt : findSmallest word (findPivot word (word.length - 1)) < word.length :=
      findSmallest_lt word _ hi1 hile
    have hperm : List.Perm
        (swapL word (findSmallest word (findPivot word (word.length - 1)))
          (findPivot word (word.length - 1) - 1)) word :=
      swapL_perm _ _ _ hs_lt (by omega)
    have hsplit : List.Perm
        ((swapL word (findSmallest word (findPivot word (word.length - 1)))
            (findPivot word (word.length - 1) - 1)).take (findPivot word (word.length - 1)) ++
          ((swapL word (findSmallest word (findPivot word (word.length - 1)))
            (findPivot word (word.length - 1) - 1)).drop
              (findPivot word (word.length - 1))).insertionSort (· ≤ ·))
        (swapL word (findSmallest word (findPivot word (word.length - 1)))
          (findPivot word (word.length - 1) - 1)) := by
      have hap := List.Perm.append_left
        ((swapL word (findSmallest word (findPivot word (word.length - 1)))
          (findPivot word (word.length - 1) - 1)).take (findPivot word (word.length - 1)))
        (List.perm_insertionSort (· ≤ ·)
          ((swapL word (findSmallest word (findPivot word (word.length - 1)))
            (findPivot word (word.length - 1) - 1)).drop (findPivot word (word.length - 1))))
      rwa [List.take_append_drop] at hap
    have hfinal := hsplit.trans hperm
    exact ⟨_, rfl, hfinal.length_eq, Multiset.coe_eq_coe.mpr hfinal⟩

/-- Witness for C10 at the concrete word `"ab"`, whose next permutation is
`"ba"`. -/
theorem get_next_preserves_multiset_witness :
    (([97, 98] : List Byte) ≠ []) ∧
      (∃ r, get_next ([97, 98] : List Byte) = some r ∧ r.length = List.length [(97 : Byte), 98] ∧
        (r : Multiset Byte) = (([97, 98] : List Byte) : Multiset Byte)) ∧
      get_next ([97, 98] : List Byte) = some [98, 97] :=
  ⟨by decide, get_next_preserves_multiset _ (by decide), by decide⟩

end Anagram
